import Mathlib

/-
Verification of the foto-importer core against its specification.

Shallow embedding of the repository's Python code:
  - src/core/copy_worker.py   (CopyJobRegistry, CopyWorker, CopyJob)
  - src/core/file_manager.py  (FileManager scanning and date resolution)
  - src/ui/controllers.py     (SourceScanController, CopyJobController)

Paths are modelled as strings; filesystems as lists of existing file paths;
Python dicts as insertion-ordered association lists (matching CPython's
guaranteed dict iteration order).  The sequential model fixes one
interleaving: a job's cancellation flag is read as a constant during a
single `run`, which is the deterministic scenario the claims quantify over.
-/

/-! ### String and path utilities (pathlib / str semantics) -/

/-- ASCII lower-casing of one character, as Python `str.lower` acts on the
ASCII range (all extensions handled by the program are ASCII). -/
def lowerChar (c : Char) : Char :=
  if 65 ≤ c.toNat ∧ c.toNat ≤ 90 then Char.ofNat (c.toNat + 32) else c

/-- Python `str.lower` on an ASCII string. -/
def lowerStr (s : String) : String :=
  String.mk (s.data.map lowerChar)

/-- Characters after the last occurrence of `sep` (the whole list if absent). -/
def afterLastSep (sep : Char) (l : List Char) : List Char :=
  l.foldl (fun acc c => if c = sep then [] else acc ++ [c]) []

/-- Index of the last occurrence of `c`, as Python `str.rfind` (None for -1). -/
def lastIdxOf (c : Char) : List Char → Option Nat
  | [] => none
  | a :: rest =>
    match lastIdxOf c rest with
    | some i => some (i + 1)
    | none => if a = c then some 0 else none

/-- Extension of a file name, as `PurePath.suffix`: the part of the final
component from its last dot, empty when there is no dot, the dot leads, or
the dot trails. -/
def nameSuffix (nm : List Char) : List Char :=
  match lastIdxOf '.' nm with
  | some i => if 0 < i ∧ i + 1 < nm.length then nm.drop i else []
  | none => []

/-- Stem of a file name, as `PurePath.stem`: the final component without its
`nameSuffix`. -/
def nameStem (nm : List Char) : List Char :=
  match lastIdxOf '.' nm with
  | some i => if 0 < i ∧ i + 1 < nm.length then nm.take i else nm
  | none => nm

/-- Final component of a path, as `PurePath.name`. -/
def pathBaseName (p : String) : String :=
  String.mk (afterLastSep '/' p.data)

/-- Suffix of a path, as `PurePath.suffix`. -/
def pathSuffix (p : String) : String :=
  String.mk (nameSuffix (afterLastSep '/' p.data))

/-- Python `Path(s)` collapses the empty string to `'.'` (the current
directory); other strings are kept as they are (no further normalisation is
needed by the claims). -/
def pathOfString (s : String) : String :=
  if s = "" then "." else s

/-! ### copy_worker.py: JobState, CopyJob state machine -/

/-- Lifecycle states for a copy job (class JobState). -/
inductive JobState
  | queued
  | running
  | completed
  | failed
  | cancelled
deriving DecidableEq, Repr

/-- Terminal states, as the set `{COMPLETED, FAILED, CANCELLED}` used in
`CopyJob.cancel` and in the worker's `_state_handler`. -/
def JobState.isTerminal : JobState → Bool
  | .completed => true
  | .failed => true
  | .cancelled => true
  | _ => false

/-- Observable control state of one CopyJob: its `_state`, its
`_cancel_event`, and the sequence of states delivered to `on_state_change`
(in delivery order). -/
structure JobCtl where
  state : JobState
  cancelRequested : Bool
  notifications : List JobState
deriving DecidableEq, Repr

/-- CopyJob._set_state: no-op when the state is unchanged, otherwise update
and emit exactly one notification. -/
def setState (s : JobState) (j : JobCtl) : JobCtl :=
  if j.state = s then j
  else { j with state := s, notifications := j.notifications ++ [s] }

/-- CopyJob.__init__: starts in QUEUED and emits the QUEUED notification
directly through `_emit_state`. -/
def initJob : JobCtl :=
  { state := .queued, cancelRequested := false, notifications := [.queued] }

/-- CopyJob.cancel: False on a terminal job, False when already
cancel-requested; otherwise set the flag, and when the thread is not alive
finalize as Cancelled immediately.  `alive` models `Thread.is_alive()`. -/
def JobCtl.cancel (alive : Bool) (j : JobCtl) : Bool × JobCtl :=
  if j.state.isTerminal then (false, j)
  else if j.cancelRequested then (false, j)
  else
    let j := { j with cancelRequested := true }
    if alive then (true, j) else (true, setState .cancelled j)

/-! ### copy_worker.py: CopyJob.run -/

/-- Observable callback events of one run: progress reports, file copies
(the `shutil.copy2` calls), and the completion callback. -/
inductive CopyEvent
  | progress (current total : Nat)
  | copyFile (src dst : String)
  | complete (name : String)
deriving DecidableEq, Repr

/-- Appending `v` under key `k` in a `defaultdict(list)`: extend in place
the (unique) entry holding `k`, keeping its insertion position; a missing
key appends a fresh singleton entry at the end. -/
def dictInsertList : List (String × List String) → String → String →
    List (String × List String)
  | [], k, v => [(k, [v])]
  | g :: m, k, v =>
    if g.1 = k then (g.1, g.2 ++ [v]) :: m else g :: dictInsertList m k v

/-- Extension bucket of a file: `suffix.lower().lstrip('.')`, with empty
mapped to the literal bucket "no_extension". -/
def extBucket (p : String) : String :=
  let e := ((pathSuffix p).data.map lowerChar).dropWhile (fun c => c = '.')
  if e.isEmpty then "no_extension" else String.mk e

/-- The `files_by_ext` defaultdict of CopyJob.run: buckets keyed by
`extBucket` in first-seen order, files inside a bucket in input order. -/
def groupByExt (files : List String) : List (String × List String) :=
  files.foldl (fun acc f => dictInsertList acc (extBucket f) f) []

/-- Files in the order CopyJob.run processes them: bucket by bucket, in
first-seen bucket order, input order within a bucket. -/
def processedOrder (files : List String) : List String :=
  (groupByExt files).flatMap (fun g => g.2)

/-- Destination candidate `k` of the collision loop: the original name for
`k = 0`, then `stem_k.suffix` for `k ≥ 1` (`Path.with_stem`). -/
def destCandidate (dir stem sfx : String) (k : Nat) : String :=
  if k = 0 then dir ++ "/" ++ stem ++ sfx
  else dir ++ "/" ++ stem ++ "_" ++ Nat.repr k ++ sfx

/-- The `while dest_path.exists()` loop of CopyJob.run, restarted at
candidate index `k`, with explicit fuel (the real loop terminates because
the filesystem is finite and candidate names are eventually fresh). -/
def findFreeDest (fs : List String) (dir stem sfx : String) : Nat → Nat → Option String
  | 0, _ => none
  | fuel + 1, k =>
    let cand := destCandidate dir stem sfx k
    if fs.contains cand then findFreeDest fs dir stem sfx fuel (k + 1) else some cand

/-- One file copy of CopyJob.run: pick the first free destination name in
the bucket directory and perform `shutil.copy2` (the destination starts to
exist).  Returns the destination and the updated filesystem. -/
def copyInto (fs : List String) (extFolder f : String) : Option (String × List String) :=
  let nm := pathBaseName f
  let stem := String.mk (nameStem nm.data)
  let sfx := String.mk (nameSuffix nm.data)
  match findFreeDest fs extFolder stem sfx (fs.length + 1) 0 with
  | some d => some (d, fs ++ [d])
  | none => none

/-- Inner loop of CopyJob.run over one bucket's files: count the file,
report progress, then attempt its copy.  State: filesystem, emitted events,
files counted so far. -/
def runFilesInBucket (extFolder : String) (total : Nat) :
    List String → List String × List CopyEvent × Nat →
    Option (List String × List CopyEvent × Nat)
  | [], acc => some acc
  | f :: rest, (fs, evs, current) =>
    let current := current + 1
    let evs := evs ++ [CopyEvent.progress current total]
    match copyInto fs extFolder f with
    | some (d, fs) =>
        runFilesInBucket extFolder total rest (fs, evs ++ [CopyEvent.copyFile f d], current)
    | none => none

/-- Outer loop of CopyJob.run over the extension buckets. -/
def runBuckets (mainFolder : String) (total : Nat) :
    List (String × List String) → List String × List CopyEvent × Nat →
    Option (List String × List CopyEvent × Nat)
  | [], acc => some acc
  | (ext, extFiles) :: rest, acc =>
    match runFilesInBucket (mainFolder ++ "/" ++ ext) total extFiles acc with
    | some acc => runBuckets mainFolder total rest acc
    | none => none

/-- Result of one CopyJob.run: final filesystem, callback events, final job
control state. -/
structure RunResult where
  fs : List String
  events : List CopyEvent
  job : JobCtl
deriving DecidableEq, Repr

/-- CopyJob.run.  When the cancel flag is already set the job finalizes as
Cancelled at once (the mid-loop re-checks read the same flag, constant in
this sequential model, so the top check decides them all).  Otherwise the
job transitions to Running, copies bucket by bucket, then finalizes as
Completed and fires `on_complete`.  I/O errors are outside this model, so
the Failed branch is not exercised here. -/
def CopyJob.run (fs : List String) (target name : String) (files : List String)
    (j : JobCtl) : Option RunResult :=
  if j.cancelRequested then
    some { fs := fs, events := [], job := setState .cancelled j }
  else
    let j := setState .running j
    let mainFolder := target ++ "/" ++ name
    match runBuckets mainFolder files.length (groupByExt files) (fs, [], 0) with
    | some (fs, evs, _) =>
        some { fs := fs
               events := evs ++ [CopyEvent.complete name]
               job := setState .completed j }
    | none => none

/-! ### copy_worker.py: CopyJobRegistry and CopyWorker -/

/-- Python dict assignment on the registry's `_jobs` dict: overwrite the
(unique) entry of that name in its insertion position, else append at the
end (jobs identified by an abstract numeric id). -/
def CopyJobRegistry.register : List (String × Nat) → String → Nat → List (String × Nat)
  | [], name, jobId => [(name, jobId)]
  | e :: m, name, jobId =>
    if e.1 = name then (e.1, jobId) :: m else e :: CopyJobRegistry.register m name jobId

/-- Outcome of CopyWorker.copy_files at the registry level: the updated
registry and whether a worker thread was started. -/
structure CopyFilesOutcome where
  registry : List (String × Nat)
  workerStarted : Bool
deriving DecidableEq, Repr

/-- CopyWorker.copy_files performs no validation: it always registers the
job under its name and always starts its thread. -/
def CopyWorker.copyFiles (m : List (String × Nat)) (name : String) (jobId : Nat) :
    CopyFilesOutcome :=
  { registry := CopyJobRegistry.register m name jobId, workerStarted := true }

/-- CopyJobController.start_job's guard (src/ui/controllers.py): raise
ValueError when the name is among the controller's active jobs. -/
def CopyJobController.startJobGuard (activeJobs : List String) (jobName : String) :
    Except String Unit :=
  if activeJobs.contains jobName then
    Except.error ("Copy job '" ++ jobName ++ "' is already running")
  else Except.ok ()

/-! ### Lexicographic string order (Python compares strings by code points) -/

/-- Lexicographic non-strict order on character lists by code point. -/
def lexLe : List Char → List Char → Bool
  | [], _ => true
  | _ :: _, [] => false
  | a :: as, b :: bs => if a = b then lexLe as bs else Nat.blt a.toNat b.toNat

/-- Python `<=` on strings. -/
def strLe (a b : String) : Bool :=
  lexLe a.data b.data

/-! ### file_manager.py: scanning -/

/-- One directory entry produced by `Path.rglob('*')`. -/
structure FsEntry where
  path : String
  isFile : Bool
deriving DecidableEq, Repr

/-- FileManager.SUPPORTED_EXTENSIONS: the fixed allowlist of image, RAW and
video extensions. -/
def FileManager.SUPPORTED_EXTENSIONS : List String :=
  [".jpg", ".jpeg", ".png", ".gif", ".bmp", ".tiff", ".tif",
   ".nef", ".cr2", ".cr3", ".arw", ".dng", ".raw", ".orf",
   ".mp4", ".mov", ".avi", ".mkv", ".m4v"]

/-- The candidate filter of `_scan_files`: regular files whose lower-cased
suffix is in the supported set, in enumeration order. -/
def scanCandidates (entries : List FsEntry) : List String :=
  (entries.filter
    (fun e => e.isFile && FileManager.SUPPORTED_EXTENSIONS.contains (lowerStr (pathSuffix e.path)))).map
    (fun e => e.path)

/-- Insert into a list sorted by `strLe`, before the first element not
below it. -/
def insertLe (a : String) : List String → List String
  | [] => [a]
  | b :: l => if strLe a b then a :: b :: l else b :: insertLe a l

/-- Sort a list of path strings, as Python `list.sort()` under the
code-point order (equal strings are indistinguishable, so any comparison
sort computes this same list). -/
def sortStrings : List String → List String
  | [] => []
  | a :: l => insertLe a (sortStrings l)

/-- Keyed insertion for the date groups. -/
def insertByKey (g : String × List String) :
    List (String × List String) → List (String × List String)
  | [] => [g]
  | h :: l => if strLe g.1 h.1 then g :: h :: l else h :: insertByKey g l

/-- Sort date groups by key, as `dict(sorted(files_by_date.items()))` (keys
are distinct, so tuple comparison reduces to key comparison). -/
def sortByKey : List (String × List String) → List (String × List String)
  | [] => []
  | g :: l => insertByKey g (sortByKey l)

/-- Result of one `_scan_files` call: the returned mapping and the sequence
of `on_progress` invocations. -/
structure ScanResult where
  groups : List (String × List String)
  progressCalls : List (Nat × Nat)
deriving DecidableEq, Repr

/-- The grouping effect of one loop iteration of `_scan_files`: append the
file under its resolved date, or drop it when the date does not resolve. -/
def dateGroupStep (resolve : String → Option String)
    (acc : List (String × List String)) (p : String) : List (String × List String) :=
  match resolve p with
  | some d => dictInsertList acc d p
  | none => acc

/-- State threaded by the processing loop of `_scan_files`: the grouping
defaultdict, the emitted progress calls, and the `processed` counter (which
advances only for files whose date resolves). -/
def scanStep (resolve : String → Option String) (total : Nat)
    (acc : List (String × List String) × List (Nat × Nat) × Nat) (p : String) :
    List (String × List String) × List (Nat × Nat) × Nat :=
  match resolve p with
  | some d =>
      (dictInsertList acc.1 d p, acc.2.1 ++ [(acc.2.2 + 1, total)], acc.2.2 + 1)
  | none => acc

/-- FileManager._scan_files.  `fsHas` models `Path.exists`, `entriesOf` the
recursive directory walk, `resolve` the per-file `_resolve_date_for_file`.
A `none` source folder is the falsy `source_folder` check (a `Path` object
itself is never falsy).  The cancellation event is absent (`None`), as in
`set_source_folder`. -/
def FileManager.scanFiles (fsHas : String → Bool) (entriesOf : String → List FsEntry)
    (resolve : String → Option String) (sourceFolder : Option String) : ScanResult :=
  match sourceFolder with
  | none => { groups := [], progressCalls := [] }
  | some folder =>
    if fsHas folder then
      let cands := scanCandidates (entriesOf folder)
      let total := cands.length
      let st := cands.foldl (scanStep resolve total) ([], [(0, total)], 0)
      { groups := sortByKey (st.1.map (fun g => (g.1, sortStrings g.2)))
        progressCalls := st.2.1 }
    else { groups := [], progressCalls := [] }

/-- FileManager.set_source_folder takes a string and builds a `Path` from
it before scanning (`Path('')` is the current directory). -/
def FileManager.setSourceFolder (fsHas : String → Bool) (entriesOf : String → List FsEntry)
    (resolve : String → Option String) (folderPath : String) : ScanResult :=
  FileManager.scanFiles fsHas entriesOf resolve (some (pathOfString folderPath))

/-! ### file_manager.py: date resolution -/

/-- The members of the Python set `EXIF_DATE_TAGS`.  The source keeps these
in a `set`, whose iteration order is unspecified; functions below therefore
take the iteration order as an explicit permutation of this list. -/
def EXIF_DATE_TAGS : List String :=
  ["DateTimeOriginal", "DateTimeDigitized", "DateTime"]

/-- IMAGE_METADATA_EXTENSIONS: extensions for which embedded metadata is
attempted. -/
def IMAGE_METADATA_EXTENSIONS : List String :=
  [".jpg", ".jpeg", ".tiff", ".tif", ".png", ".bmp"]

/-- Decimal digit test, as the `\d` of the `_strptime` regexes (ASCII). -/
def isDigitChar (c : Char) : Bool :=
  48 ≤ c.toNat && c.toNat ≤ 57

/-- Numeric value of a decimal digit character. -/
def digitVal (c : Char) : Nat :=
  c.toNat - 48

/-- `%Y` of `_strptime`: exactly four digits. -/
def take4Digits (l : List Char) : Option (Nat × List Char) :=
  match l with
  | a :: b :: c :: d :: rest =>
    if isDigitChar a && isDigitChar b && isDigitChar c && isDigitChar d then
      some ((((digitVal a * 10 + digitVal b) * 10 + digitVal c) * 10 + digitVal d), rest)
    else none
  | _ => none

/-- A one-or-two-digit field, maximal munch (equivalent to the `_strptime`
alternation whenever the next format token is a non-digit). -/
def take12Digits (l : List Char) : Option (Nat × List Char) :=
  match l with
  | a :: b :: rest =>
    if isDigitChar a then
      if isDigitChar b then some (digitVal a * 10 + digitVal b, rest)
      else some (digitVal a, b :: rest)
    else none
  | [a] => if isDigitChar a then some (digitVal a, []) else none
  | [] => none

/-- Consume one expected literal character of the format. -/
def expectChar (c : Char) : List Char → Option (List Char)
  | a :: rest => if a = c then some rest else none
  | [] => none

/-- Gregorian leap year, as `datetime`. -/
def isLeapYear (y : Nat) : Bool :=
  y % 4 = 0 && (y % 100 ≠ 0 || y % 400 = 0)

/-- Days in a month, as `datetime`. -/
def daysInMonth (y m : Nat) : Nat :=
  if m = 2 then (if isLeapYear y then 29 else 28)
  else if m = 4 ∨ m = 6 ∨ m = 9 ∨ m = 11 then 30 else 31

/-- Validity of `datetime(y, m, d)` (MINYEAR 1; four-digit parses bound the
year by 9999 = MAXYEAR already). -/
def validDate (y m d : Nat) : Bool :=
  1 ≤ y && 1 ≤ m && m ≤ 12 && 1 ≤ d && d ≤ daysInMonth y m

/-- Two-digit zero padding of `strftime`. -/
def pad2 (n : Nat) : String :=
  if n < 10 then "0" ++ Nat.repr n else Nat.repr n

/-- `strftime("%Y-%m-%d")` on a parsed date. -/
def formatYmd (y m d : Nat) : String :=
  Nat.repr y ++ "-" ++ pad2 m ++ "-" ++ pad2 d

/-- The format `"%Y:%m:%d %H:%M:%S"` with `datetime` validity, as
`datetime.strptime` (field regexes bound H to 0..23 and M, S to 0..59). -/
def parseExifFormat1 (l : List Char) : Option (Nat × Nat × Nat) := do
  let (y, l) ← take4Digits l
  let l ← expectChar ':' l
  let (m, l) ← take12Digits l
  let l ← expectChar ':' l
  let (d, l) ← take12Digits l
  let l ← expectChar ' ' l
  let (hh, l) ← take12Digits l
  let l ← expectChar ':' l
  let (mi, l) ← take12Digits l
  let l ← expectChar ':' l
  let (s, l) ← take12Digits l
  if l.isEmpty && hh ≤ 23 && mi ≤ 59 && s ≤ 59 && validDate y m d then
    some (y, m, d)
  else none

/-- The format `"%Y:%m:%d"` with `datetime` validity. -/
def parseExifFormat2 (l : List Char) : Option (Nat × Nat × Nat) := do
  let (y, l) ← take4Digits l
  let l ← expectChar ':' l
  let (m, l) ← take12Digits l
  let l ← expectChar ':' l
  let (d, l) ← take12Digits l
  if l.isEmpty && validDate y m d then some (y, m, d) else none

/-- FileManager._parse_exif_datetime: try `"%Y:%m:%d %H:%M:%S"` then
`"%Y:%m:%d"`, render the first success as `"%Y-%m-%d"`. -/
def FileManager.parseExifDatetime (value : String) : Option String :=
  match parseExifFormat1 value.data with
  | some (y, m, d) => some (formatYmd y m d)
  | none =>
    match parseExifFormat2 value.data with
    | some (y, m, d) => some (formatYmd y m d)
    | none => none

/-- Day field at the end of the compact IPTC format: a final one- or
two-digit day (the two-digit reading is committed when two characters
remain, as the `_strptime` regex alternation), checked against the
calendar. -/
def parseDayEnd (y m : Nat) (l : List Char) : Option (Nat × Nat × Nat) :=
  match l with
  | [a, b] =>
    if isDigitChar a && isDigitChar b then
      let d := digitVal a * 10 + digitVal b
      if validDate y m d then some (y, m, d) else none
    else none
  | [a] =>
    if isDigitChar a then
      let d := digitVal a
      if validDate y m d then some (y, m, d) else none
    else none
  | _ => none

/-- The format `"%Y%m%d"`: adjacent digit fields force the regex engine's
backtracking over the month width, modelled by trying the two-digit month
first and falling back to the one-digit month. -/
def parseYmdCompact (l : List Char) : Option (Nat × Nat × Nat) :=
  match take4Digits l with
  | none => none
  | some (y, rest) =>
    match rest with
    | a :: b :: rest2 =>
      if isDigitChar a then
        let wide :=
          if isDigitChar b then
            let m2 := digitVal a * 10 + digitVal b
            if 1 ≤ m2 && m2 ≤ 12 then parseDayEnd y m2 rest2 else none
          else none
        let narrow :=
          if 1 ≤ digitVal a then parseDayEnd y (digitVal a) (b :: rest2) else none
        wide <|> narrow
      else none
    | _ => none

/-- The format `"%Y-%m-%d"` with `datetime` validity. -/
def parseYmdDashed (l : List Char) : Option (Nat × Nat × Nat) := do
  let (y, l) ← take4Digits l
  let l ← expectChar '-' l
  let (m, l) ← take12Digits l
  let l ← expectChar '-' l
  let (d, l) ← take12Digits l
  if l.isEmpty && validDate y m d then some (y, m, d) else none

/-- Whitespace for Python `str.strip` (ASCII range). -/
def isSpaceChar (c : Char) : Bool :=
  c = ' ' || c = '\t' || c = '\n' || c = '\r' || c.toNat = 11 || c.toNat = 12

/-- Python `str.strip()`. -/
def stripChars (l : List Char) : List Char :=
  ((l.dropWhile isSpaceChar).reverse.dropWhile isSpaceChar).reverse

/-- FileManager._parse_iptc_date: strip, reject empty, try `"%Y%m%d"` then
`"%Y-%m-%d"`, render the first success as `"%Y-%m-%d"`. -/
def FileManager.parseIptcDate (value : String) : Option String :=
  let s := stripChars value.data
  if s.isEmpty then none
  else
    match parseYmdCompact s with
    | some (y, m, d) => some (formatYmd y m d)
    | none =>
      match parseYmdDashed s with
      | some (y, m, d) => some (formatYmd y m d)
      | none => none

/-! ### file_manager.py: metadata date chain -/

/-- Embedded metadata of one image, as far as the code reads it: the EXIF
tag table (by tag name, through EXIF_TAG_LOOKUP) and the decoded IPTC
DateCreated entry `(2, 55)` when present. -/
structure ImageMeta where
  exif : List (String × String)
  iptcDateCreated : Option String
deriving DecidableEq, Repr

/-- The tag loop of `_extract_exif_date` over one iteration order of the
tag set: skip tags that are absent or falsy (empty), return the first value
that parses. -/
def exifTagsSearch (exif : List (String × String)) : List String → Option String
  | [] => none
  | t :: ts =>
    match (exif.find? (fun p => p.1 == t)).map (fun p => p.2) with
    | some v =>
      if v = "" then exifTagsSearch exif ts
      else
        match FileManager.parseExifDatetime v with
        | some d => some d
        | none => exifTagsSearch exif ts
    | none => exifTagsSearch exif ts

/-- One tag's contribution to the loop of `_extract_exif_date`: the parse
of its value when the tag is present with a truthy (non-empty) value,
`none` otherwise. -/
def tagParses (exif : List (String × String)) (t : String) : Option String :=
  match (exif.find? (fun p => p.1 == t)).map (fun p => p.2) with
  | some v => if v = "" then none else FileManager.parseExifDatetime v
  | none => none

/-- FileManager._extract_exif_date: `None` when the EXIF table is falsy
(empty), else the tag loop.  `tagOrder` is the unspecified iteration order
of the `EXIF_DATE_TAGS` set. -/
def FileManager.extractExifDate (tagOrder : List String) (exif : List (String × String)) :
    Option String :=
  if exif.isEmpty then none else exifTagsSearch exif tagOrder

/-- FileManager._get_metadata_date: nothing for extensions outside
IMAGE_METADATA_EXTENSIONS; `none` metadata models an unreadable image (the
caught exception); otherwise EXIF first, then IPTC. -/
def FileManager.getMetadataDate (tagOrder : List String) (filePath : String)
    (meta : Option ImageMeta) : Option String :=
  if IMAGE_METADATA_EXTENSIONS.contains (lowerStr (pathSuffix filePath)) then
    match meta with
    | none => none
    | some m =>
      match FileManager.extractExifDate tagOrder m.exif with
      | some d => some d
      | none =>
        match m.iptcDateCreated with
        | some s => FileManager.parseIptcDate s
        | none => none
  else none

/-- Preferred date source for grouping logic (class DateSource). -/
inductive DateSource
  | filesystem
  | metadata
deriving DecidableEq, Repr

/-- FileManager._resolve_date_for_file: metadata date when the policy is
METADATA and one is found, else the filesystem date (`fsDate` models
`_get_filesystem_date`, `none` being its OSError branch). -/
def FileManager.resolveDateForFile (source : DateSource) (tagOrder : List String)
    (filePath : String) (meta : Option ImageMeta) (fsDate : Option String) : Option String :=
  match source with
  | .metadata =>
    match FileManager.getMetadataDate tagOrder filePath meta with
    | some d => some d
    | none => fsDate
  | .filesystem => fsDate

/-! ### ui/controllers.py: SourceScanController -/

/-- SourceScanController.scan's sequence assignment under `_request_lock`:
increment the counter and hand the new value to the request. -/
def SourceScanController.issueScan (requestId : Nat) : Nat × Nat :=
  (requestId + 1, requestId + 1)

/-- SourceScanController._handle_success: dispatch (apply results and call
back) only when the request's sequence number still equals the latest. -/
def SourceScanController.handleSuccess (latestRequestId seq : Nat) (folderPath : String)
    (filesByDate : List (String × List String)) :
    Option (String × List (String × List String)) :=
  if seq = latestRequestId then some (folderPath, filesByDate) else none

/-- SourceScanController._handle_error: same staleness guard for the error
callback. -/
def SourceScanController.handleError (latestRequestId seq : Nat) (msg : String) :
    Option String :=
  if seq = latestRequestId then some msg else none

/-! ### Possible `_set_state` call sequences of one CopyJob -/

/-- The sequences of arguments a single job's code can pass to `_set_state`
over its lifetime (after the QUEUED emitted by `__init__`):
a job never started and never cancelled; cancel before start (optionally
followed by the started worker seeing the flag); a started worker
completing, failing, or observing a cancel request. -/
inductive StateCallSeq : List JobState → Prop
  | neverStarted : StateCallSeq []
  | cancelBeforeStart : StateCallSeq [.cancelled]
  | cancelBeforeStartThenRun : StateCallSeq [.cancelled, .cancelled]
  | completedRun : StateCallSeq [.running, .completed]
  | failedRun : StateCallSeq [.running, .failed]
  | cancelledMidRun : StateCallSeq [.running, .cancelled]

/-! ### Trace views of a run's events -/

/-- The interleaved progress/copy block emitted while copying files `fl` to
destinations `ds`, with `start` files already counted before it. -/
def copyTrace (total : Nat) : Nat → List String → List String → List CopyEvent
  | _, [], _ => []
  | _, _ :: _, [] => []
  | start, f :: fl, d :: ds =>
    CopyEvent.progress (start + 1) total :: CopyEvent.copyFile f d ::
      copyTrace total (start + 1) fl ds

/-- The `on_progress` arguments of an event list, in call order. -/
def progressList (evs : List CopyEvent) : List (Nat × Nat) :=
  evs.filterMap (fun e => match e with
    | CopyEvent.progress c t => some (c, t)
    | _ => none)

/-- The source files of an event list's copy attempts, in order. -/
def copySrcs (evs : List CopyEvent) : List String :=
  evs.filterMap (fun e => match e with
    | CopyEvent.copyFile s _ => some s
    | _ => none)

/-- Decides "progress is reported after each file attempt": every progress
report `(c, t)` must already be preceded by at least `c` copy attempts. -/
def progressAfterAttempts : Nat → List CopyEvent → Bool
  | _, [] => true
  | copied, CopyEvent.progress c _ :: rest =>
    decide (c ≤ copied) && progressAfterAttempts copied rest
  | copied, CopyEvent.copyFile _ _ :: rest => progressAfterAttempts (copied + 1) rest
  | copied, CopyEvent.complete _ :: rest => progressAfterAttempts copied rest

/-! ### Order lemmas for the code-point string order -/

theorem charToNat_inj {a b : Char} (h : a.toNat = b.toNat) : a = b :=
  Char.ext (UInt32.ext h)

theorem lexLe_total (a b : List Char) : lexLe a b = true ∨ lexLe b a = true := by
  induction a generalizing b with
  | nil => left; rfl
  | cons x xs ih =>
    cases b with
    | nil => right; rfl
    | cons y ys =>
      by_cases hxy : x = y
      · subst hxy
        simpa [lexLe] using ih ys
      · have hne : x.toNat ≠ y.toNat := fun h => hxy (charToNat_inj h)
        rcases Nat.lt_or_ge x.toNat y.toNat with h | h
        · left; simp [lexLe, hxy, Nat.blt_eq, h]
        · right
          have hyx : ¬ y = x := fun e => hxy e.symm
          have hlt : y.toNat < x.toNat := lt_of_le_of_ne h (fun e => hne e.symm)
          simp [lexLe, hyx, Nat.blt_eq, hlt]

theorem strLe_total (a b : String) : strLe a b = true ∨ strLe b a = true :=
  lexLe_total a.data b.data

/-! ### Registry lemmas -/

theorem register_length (m : List (String × Nat)) (name : String) (jobId : Nat)
    (h : name ∈ m.map Prod.fst) :
    (CopyJobRegistry.register m name jobId).length = m.length := by
  induction m with
  | nil => simp at h
  | cons e m ih =>
    by_cases he : e.1 = name
    · simp [CopyJobRegistry.register, he]
    · have : name ∈ m.map Prod.fst := by
        rcases List.mem_map.mp h with ⟨p, hp, hp1⟩
        rcases List.mem_cons.mp hp with hp | hp
        · exact absurd (hp ▸ hp1) he
        · exact List.mem_map.mpr ⟨p, hp, hp1⟩
      simp [CopyJobRegistry.register, he, ih this]

theorem register_lookup (m : List (String × Nat)) (name : String) (jobId : Nat) :
    (CopyJobRegistry.register m name jobId).lookup name = some jobId := by
  induction m with
  | nil => simp [CopyJobRegistry.register, List.lookup]
  | cons e m ih =>
    by_cases he : e.1 = name
    · simp [CopyJobRegistry.register, he, List.lookup]
    · have : (name == e.1) = false := by
        simp [BEq.beq]
        exact fun h => he h.symm
      simp [CopyJobRegistry.register, he, List.lookup, this, ih]

theorem register_keeps_others (m : List (String × Nat)) (name : String) (jobId : Nat) :
    ∀ e ∈ m, e.1 ≠ name → e ∈ CopyJobRegistry.register m name jobId := by
  induction m with
  | nil => intro e he; simp at he
  | cons f m ih =>
    intro e he hne
    by_cases hf : f.1 = name
    · rcases List.mem_cons.mp he with he | he
      · exact absurd (he ▸ hf) hne
      · simp [CopyJobRegistry.register, hf]
        right; exact he
    · rcases List.mem_cons.mp he with he | he
      · simp [CopyJobRegistry.register, hf, he]
      · simp [CopyJobRegistry.register, hf]
        right; exact ih e he hne

/-! ### Claim C1 -/

/-- C1 counterexample: while "job" is active (registered as job 1), starting
a copy with the same name is not an error: `copy_files` starts a second
worker and `register` silently replaces the registry entry. -/
theorem c1_duplicate_name_counterexample :
    CopyWorker.copyFiles [("job", 1)] "job" 2 =
      { registry := [("job", 2)], workerStarted := true } := by
  decide

/-- C1 (amended): registering a job under a name that is already registered
silently overwrites that registry entry (size unchanged, the name now maps
to the new job, all other entries kept), and `copy_files` always starts a
worker; a duplicate name is rejected synchronously only by the UI layer's
`CopyJobController.start_job`, which raises ValueError for an active name. -/
theorem c1_register_overwrites_silently (m : List (String × Nat)) (name : String)
    (jobId : Nat) (h : name ∈ m.map Prod.fst) :
    (CopyJobRegistry.register m name jobId).length = m.length ∧
    (CopyJobRegistry.register m name jobId).lookup name = some jobId ∧
    (∀ e ∈ m, e.1 ≠ name → e ∈ CopyJobRegistry.register m name jobId) ∧
    (CopyWorker.copyFiles m name jobId).workerStarted = true ∧
    (∀ active : List String, ∀ jn ∈ active,
      CopyJobController.startJobGuard active jn =
        Except.error ("Copy job '" ++ jn ++ "' is already running")) := by
  refine ⟨register_length m name jobId h, register_lookup m name jobId,
    register_keeps_others m name jobId, rfl, ?_⟩
  intro active jn hjn
  simp [CopyJobController.startJobGuard, hjn]

/-- Witness for C1: the amended behaviour at the concrete duplicate input. -/
theorem c1_register_overwrites_silently_witness :
    (CopyJobRegistry.register [("job", 1)] "job" 2).length = 1 ∧
    (CopyJobRegistry.register [("job", 1)] "job" 2).lookup "job" = some 2 ∧
    CopyJobController.startJobGuard ["job"] "job" =
      Except.error ("Copy job 'job' is already running") := by
  have h := c1_register_overwrites_silently [("job", 1)] "job" 2 (by decide)
  exact ⟨h.1, h.2.1, h.2.2.2.2 ["job"] "job" (by decide)⟩

/-! ### Claim C2 -/

/-- C2: cancelling a job before its worker thread has started returns true,
immediately finalizes the job as Cancelled with exactly one Cancelled
notification; the worker, when it later runs, copies nothing, changes
nothing, and emits no further notification (the flag's Cancelled transition
is not duplicated); cancel returns false on a terminal job and on a job
already cancel-requested. -/
theorem c2_cancel_before_start (fs : List String) (target name : String)
    (files : List String) :
    ((JobCtl.cancel false initJob).1 = true ∧
     (JobCtl.cancel false initJob).2.state = .cancelled ∧
     (JobCtl.cancel false initJob).2.notifications = [.queued, .cancelled] ∧
     (JobCtl.cancel false initJob).2.notifications.count .cancelled = 1) ∧
    CopyJob.run fs target name files (JobCtl.cancel false initJob).2 =
      some { fs := fs, events := [], job := (JobCtl.cancel false initJob).2 } ∧
    (∀ j : JobCtl, ∀ alive : Bool, j.state.isTerminal = true →
      (JobCtl.cancel alive j).1 = false) ∧
    (∀ j : JobCtl, ∀ alive : Bool, j.cancelRequested = true →
      (JobCtl.cancel alive j).1 = false) := by
  refine ⟨by decide, rfl, ?_, ?_⟩
  · intro j alive h
    simp [JobCtl.cancel, h]
  · intro j alive h
    by_cases ht : j.state.isTerminal = true
    · simp [JobCtl.cancel, ht]
    · simp [JobCtl.cancel, ht, h]

/-- Witness for C2 at concrete inputs: the race scenario on an empty batch,
a terminal job refusing cancel, and an already-requested job refusing
cancel. -/
theorem c2_cancel_before_start_witness :
    (JobCtl.cancel false initJob).1 = true ∧
    CopyJob.run [] "/t" "n" ["/s/a.jpg"] (JobCtl.cancel false initJob).2 =
      some { fs := [], events := [], job := (JobCtl.cancel false initJob).2 } ∧
    (JobCtl.cancel true (JobCtl.mk .completed false [])).1 = false ∧
    (JobCtl.cancel true (JobCtl.mk .running true [])).1 = false := by
  refine ⟨(c2_cancel_before_start [] "/t" "n" ["/s/a.jpg"]).1.1,
    (c2_cancel_before_start [] "/t" "n" ["/s/a.jpg"]).2.1, ?_, ?_⟩
  · exact (c2_cancel_before_start [] "/t" "n" []).2.2.1 _ true (by decide)
  · exact (c2_cancel_before_start [] "/t" "n" []).2.2.2 _ true rfl

/-! ### Claim C5 -/

/-- C5: `_set_state` with the state the job already holds is a no-op with
no notification; along every call sequence the code can produce, the
delivered state notifications contain no duplicate and appear in call
(transition) order. -/
theorem c5_set_state_idempotent_no_dup (j : JobCtl) (s : JobState)
    (seq : List JobState) (hs : StateCallSeq seq) :
    (j.state = s → setState s j = j) ∧
    ((seq.foldl (fun jb st => setState st jb) initJob).notifications.Nodup ∧
     (seq.foldl (fun jb st => setState st jb) initJob).notifications.Sublist
       (JobState.queued :: seq)) := by
  constructor
  · intro h
    simp [setState, h]
  · cases hs <;> constructor <;> decide

/-- Witness for C5: idempotence at a concrete repeated state, and the
cancel-before-start-then-run call sequence. -/
theorem c5_set_state_idempotent_no_dup_witness :
    (setState .queued initJob = initJob) ∧
    (([JobState.cancelled, JobState.cancelled].foldl
        (fun jb st => setState st jb) initJob).notifications.Nodup ∧
     ([JobState.cancelled, JobState.cancelled].foldl
        (fun jb st => setState st jb) initJob).notifications.Sublist
       [JobState.queued, JobState.cancelled, JobState.cancelled]) := by
  exact ⟨(c5_set_state_idempotent_no_dup initJob .queued []
            StateCallSeq.neverStarted).1 rfl,
    (c5_set_state_idempotent_no_dup initJob .queued [.cancelled, .cancelled]
      StateCallSeq.cancelBeforeStartThenRun).2⟩

/-! ### Claim C8 -/

/-- C8: each scan request is assigned the next sequence number (strictly
larger than the current counter and than every earlier request's), results
whose number no longer equals the latest are silently discarded by both the
success and error handlers, and a request still current is dispatched; so
once scan B is issued after scan A, A's completion never invokes its
callbacks. -/
theorem c8_stale_scan_discarded (c k : Nat) (hk : 0 < k) (folder msg : String)
    (groups : List (String × List String)) :
    ((SourceScanController.issueScan c).2 = c + 1 ∧
     (SourceScanController.issueScan c).1 = c + 1 ∧ c < (SourceScanController.issueScan c).2) ∧
    ((fun x => (SourceScanController.issueScan x).1)^[k] (c + 1) = c + 1 + k) ∧
    (∀ latest seq : Nat, seq < latest →
      SourceScanController.handleSuccess latest seq folder groups = none ∧
      SourceScanController.handleError latest seq msg = none) ∧
    SourceScanController.handleSuccess (c + 1) (c + 1) folder groups =
      some (folder, groups) := by
  refine ⟨⟨rfl, rfl, Nat.lt_succ_self c⟩, ?_, ?_, ?_⟩
  · induction k with
    | zero => simp at hk
    | succ n ih =>
      cases Nat.eq_zero_or_pos n with
      | inl h0 =>
        subst h0
        simp [SourceScanController.issueScan]
      | inr hpos =>
        rw [Function.iterate_succ_apply', ih hpos]
        simp [SourceScanController.issueScan]
        omega
  · intro latest seq hlt
    have hne : ¬ seq = latest := Nat.ne_of_lt hlt
    exact ⟨by simp [SourceScanController.handleSuccess, hne],
           by simp [SourceScanController.handleError, hne]⟩
  · simp [SourceScanController.handleSuccess]

/-- Witness for C8: scan A gets number 1, scan B gets number 2, and A's
completion is then discarded while B's is dispatched. -/
theorem c8_stale_scan_discarded_witness :
    (SourceScanController.issueScan 0).2 = 1 ∧
    ((fun x => (SourceScanController.issueScan x).1)^[1] 1 = 2) ∧
    SourceScanController.handleSuccess 2 1 "/src" [] = none ∧
    SourceScanController.handleSuccess 1 1 "/src" [] = some ("/src", []) := by
  have h := c8_stale_scan_discarded 0 1 (by decide) "/src" "boom" []
  exact ⟨h.1.1, by simpa using h.2.1, (h.2.2.1 2 1 (by decide)).1, h.2.2.2⟩

/-! ### Claim C9 -/

/-- C9 counterexample: an empty file batch is not rejected — the job is
registered, its worker thread is started, and the worker runs to Completed,
firing the completion callback. -/
theorem c9_empty_batch_counterexample :
    CopyWorker.copyFiles [] "j" 1 = { registry := [("j", 1)], workerStarted := true } ∧
    CopyJob.run [] "/t" "j" [] initJob =
      some { fs := [], events := [CopyEvent.complete "j"],
             job := JobCtl.mk .completed false [.queued, .running, .completed] } := by
  decide

/-- C9 (amended): an empty file batch is accepted without validation: the
job is registered, a worker starts, and the run copies zero files, emits no
progress call, finalizes Completed and invokes `on_complete`. -/
theorem c9_empty_batch_completes (fs : List String) (target name : String)
    (m : List (String × Nat)) (jobId : Nat) :
    (CopyWorker.copyFiles m name jobId).workerStarted = true ∧
    CopyJob.run fs target name [] initJob =
      some { fs := fs, events := [CopyEvent.complete name],
             job := JobCtl.mk .completed false [.queued, .running, .completed] } := by
  exact ⟨rfl, rfl⟩

/-! ### Claim C10 -/

/-- C10 counterexample: the empty source-folder string is `Path('')`, which
is the current directory `'.'`; when it exists and holds a supported file,
the scan returns a non-empty mapping and fires progress callbacks. -/
theorem c10_empty_string_counterexample :
    FileManager.setSourceFolder (fun p => p == ".")
      (fun _ => [FsEntry.mk "./a.jpg" true]) (fun _ => some "2020-03-04") "" =
      { groups := [("2020-03-04", ["./a.jpg"])], progressCalls := [(0, 1), (1, 1)] } := by
  decide

/-- C10 (amended): a `None` source folder, or one that does not exist on
the filesystem, yields the empty mapping with no progress callback and no
error; an empty string, however, denotes the current directory and is
scanned normally. -/
theorem c10_scan_missing_folder_empty (fsHas : String → Bool)
    (entriesOf : String → List FsEntry) (resolve : String → Option String)
    (src : Option String)
    (h : src = none ∨ ∃ f, src = some f ∧ fsHas f = false) :
    FileManager.scanFiles fsHas entriesOf resolve src =
      { groups := [], progressCalls := [] } := by
  rcases h with h | ⟨f, hf, hex⟩
  · subst h; rfl
  · subst hf
    simp [FileManager.scanFiles, hex]

/-- Witness for C10: a nonexistent folder at a concrete filesystem. -/
theorem c10_scan_missing_folder_empty_witness :
    FileManager.scanFiles (fun _ => false) (fun _ => [FsEntry.mk "/x/a.jpg" true])
      (fun _ => some "2020-01-01") (some "/x") =
      { groups := [], progressCalls := [] } := by
  exact c10_scan_missing_folder_empty (fun _ => false)
    (fun _ => [FsEntry.mk "/x/a.jpg" true]) (fun _ => some "2020-01-01")
    (some "/x") (Or.inr ⟨"/x", rfl, rfl⟩)

/-! ### Lemmas about the copy loop -/

theorem findFreeDest_not_mem (fs : List String) (dir stem sfx : String) :
    ∀ fuel k d, findFreeDest fs dir stem sfx fuel k = some d → fs.contains d = false := by
  intro fuel
  induction fuel with
  | zero =>
    intro k d h
    simp [findFreeDest] at h
  | succ n ih =>
    intro k d h
    simp only [findFreeDest] at h
    by_cases hc : fs.contains (destCandidate dir stem sfx k) = true
    · rw [if_pos hc] at h
      exact ih (k + 1) d h
    · rw [if_neg hc] at h
      injection h with h
      rw [← h]
      simpa using hc

theorem findFreeDest_spec (fs : List String) (dir stem sfx : String) :
    ∀ fuel k d, findFreeDest fs dir stem sfx fuel k = some d ↔
      ∃ j, j < fuel ∧ fs.contains (destCandidate dir stem sfx (k + j)) = false ∧
        (∀ i, i < j → fs.contains (destCandidate dir stem sfx (k + i)) = true) ∧
        d = destCandidate dir stem sfx (k + j) := by
  intro fuel
  induction fuel with
  | zero =>
    intro k d
    simp [findFreeDest]
  | succ n ih =>
    intro k d
    constructor
    · intro h
      simp only [findFreeDest] at h
      by_cases hc : fs.contains (destCandidate dir stem sfx k) = true
      · rw [if_pos hc] at h
        rcases (ih (k + 1) d).mp h with ⟨j, hj, hfree, hall, hd⟩
        have hidx : k + (j + 1) = k + 1 + j := by omega
        refine ⟨j + 1, by omega, by rw [hidx]; exact hfree, ?_, by rw [hidx]; exact hd⟩
        intro i hi
        cases i with
        | zero => simpa using hc
        | succ i' =>
          have : k + (i' + 1) = k + 1 + i' := by omega
          rw [this]
          exact hall i' (by omega)
      · rw [if_neg hc] at h
        injection h with h
        exact ⟨0, by omega, by simpa using hc,
          fun i hi => absurd hi (Nat.not_lt_zero i), by simpa using h.symm⟩
    · rintro ⟨j, hj, hfree, hall, hd⟩
      simp only [findFreeDest]
      by_cases hc : fs.contains (destCandidate dir stem sfx k) = true
      · rw [if_pos hc]
        cases j with
        | zero =>
          rw [Nat.add_zero] at hfree
          rw [hfree] at hc
          cases hc
        | succ j' =>
          apply (ih (k + 1) d).mpr
          have hidx : k + (j' + 1) = k + 1 + j' := by omega
          refine ⟨j', by omega, by rw [← hidx]; exact hfree, ?_, by rw [← hidx]; exact hd⟩
          intro i hi
          have : k + 1 + i = k + (i + 1) := by omega
          rw [this]
          exact hall (i + 1) (by omega)
      · rw [if_neg hc]
        cases j with
        | succ j' =>
          have h0 := hall 0 (by omega)
          rw [Nat.add_zero] at h0
          rw [h0] at hc
          cases hc rfl
        | zero =>
          rw [Nat.add_zero] at hd
          rw [hd]

theorem copyInto_spec (fs : List String) (ext f d : String) (fs2 : List String)
    (h : copyInto fs ext f = some (d, fs2)) :
    fs2 = fs ++ [d] ∧ fs.contains d = false := by
  simp only [copyInto] at h
  cases hfd : findFreeDest fs ext (String.mk (nameStem (pathBaseName f).data))
      (String.mk (nameSuffix (pathBaseName f).data)) (fs.length + 1) 0 with
  | none => rw [hfd] at h; cases h
  | some d' =>
    rw [hfd] at h
    simp only [Option.some_inj, Prod.mk.injEq] at h
    rcases h with ⟨hd, hfs⟩
    subst hd
    exact ⟨hfs.symm, findFreeDest_not_mem fs ext _ _ _ _ _ hfd⟩

theorem copyTrace_append (total : Nat) :
    ∀ l1 ds1 l2 ds2 c, ds1.length = l1.length →
    copyTrace total c (l1 ++ l2) (ds1 ++ ds2) =
      copyTrace total c l1 ds1 ++ copyTrace total (c + l1.length) l2 ds2 := by
  intro l1
  induction l1 with
  | nil =>
    intro ds1 l2 ds2 c h
    have : ds1 = [] := List.length_eq_zero.mp (by simpa using h)
    subst this
    simp [copyTrace]
  | cons f fl ih =>
    intro ds1 l2 ds2 c h
    cases ds1 with
    | nil => simp at h
    | cons d ds1' =>
      simp only [List.cons_append, copyTrace, List.length_cons, List.append_eq]
      rw [ih ds1' l2 ds2 (c + 1) (by simpa using h)]
      have : c + (fl.length + 1) = c + 1 + fl.length := by omega
      rw [this]

theorem runFilesInBucket_spec (ext : String) (total : Nat) :
    ∀ fl fs evs c out, runFilesInBucket ext total fl (fs, evs, c) = some out →
    ∃ ds : List String, ds.length = fl.length ∧
      out.1 = fs ++ ds ∧
      out.2.1 = evs ++ copyTrace total c fl ds ∧
      out.2.2 = c + fl.length ∧
      (∀ i, (hi : i < ds.length) → (fs ++ ds.take i).contains ds[i] = false) := by
  intro fl
  induction fl with
  | nil =>
    intro fs evs c out h
    simp only [runFilesInBucket, Option.some_inj] at h
    subst h
    exact ⟨[], rfl, by simp, by simp [copyTrace], by simp,
      by intro i hi; simp at hi⟩
  | cons f rest ih =>
    intro fs evs c out h
    simp only [runFilesInBucket] at h
    cases hci : copyInto fs ext f with
    | none => rw [hci] at h; cases h
    | some pr =>
      obtain ⟨d, fs1⟩ := pr
      rw [hci] at h
      rcases copyInto_spec fs ext f d fs1 hci with ⟨hfs1, hfree⟩
      rcases ih fs1 (evs ++ [CopyEvent.progress (c + 1) total] ++ [CopyEvent.copyFile f d])
          (c + 1) out h with ⟨ds', hlen, hout1, hout2, hout3, hfresh⟩
      refine ⟨d :: ds', by simp [hlen], ?_, ?_, ?_, ?_⟩
      · rw [hout1, hfs1]; simp
      · rw [hout2]
        simp [copyTrace]
      · rw [hout3]; simp; omega
      · intro i hi
        cases i with
        | zero => simpa using hfree
        | succ i' =>
          have hi' : i' < ds'.length := by
            simp only [List.length_cons] at hi
            omega
          have hx := hfresh i' hi'
          rw [hfs1] at hx
          simpa [List.append_assoc] using hx

theorem runBuckets_spec (main : String) (total : Nat) :
    ∀ gs fs evs c out, runBuckets main total gs (fs, evs, c) = some out →
    ∃ ds : List String, ds.length = (gs.flatMap (fun g => g.2)).length ∧
      out.1 = fs ++ ds ∧
      out.2.1 = evs ++ copyTrace total c (gs.flatMap (fun g => g.2)) ds ∧
      out.2.2 = c + (gs.flatMap (fun g => g.2)).length ∧
      (∀ i, (hi : i < ds.length) → (fs ++ ds.take i).contains ds[i] = false) := by
  intro gs
  induction gs with
  | nil =>
    intro fs evs c out h
    simp only [runBuckets, Option.some_inj] at h
    subst h
    exact ⟨[], rfl, by simp, by simp [copyTrace], by simp,
      by intro i hi; simp at hi⟩
  | cons g gs ih =>
    obtain ⟨ext, fl⟩ := g
    intro fs evs c out h
    simp only [runBuckets] at h
    cases hrb : runFilesInBucket (main ++ "/" ++ ext) total fl (fs, evs, c) with
    | none => rw [hrb] at h; cases h
    | some acc1 =>
      rw [hrb] at h
      obtain ⟨fs1, evs1, c1⟩ := acc1
      rcases runFilesInBucket_spec (main ++ "/" ++ ext) total fl fs evs c (fs1, evs1, c1) hrb
        with ⟨ds1, hlen1, h11, h12, h13, hf1⟩
      rcases ih fs1 evs1 c1 out h with ⟨ds2, hlen2, h21, h22, h23, hf2⟩
      simp only at h11 h12 h13
      refine ⟨ds1 ++ ds2, by simp [hlen1, hlen2], ?_, ?_, ?_, ?_⟩
      · rw [h21, h11]; simp
      · rw [h22, h12, h13]
        rw [List.flatMap_cons, copyTrace_append total fl ds1 _ ds2 c hlen1]
        simp [List.append_assoc]
      · rw [h23, h13]
        simp
        omega
      · intro i hi
        simp only [List.length_append] at hi
        by_cases hcase : i < ds1.length
        · have := hf1 i hcase
          rw [List.take_append_eq_append_take]
          have hz : i - ds1.length = 0 := by omega
          rw [hz]
          simp only [List.take_zero, List.append_nil]
          rw [List.getElem_append_left hcase]
          exact this
        · have hi2 : i - ds1.length < ds2.length := by omega
          have := hf2 (i - ds1.length) hi2
          rw [h11] at this
          rw [List.take_append_eq_append_take]
          have htk : ds1.take i = ds1 := List.take_of_length_le (by omega)
          rw [htk]
          rw [List.getElem_append_right (by omega)]
          simpa [List.append_assoc] using this

theorem run_spec (fs : List String) (target name : String) (files : List String)
    (j : JobCtl) (hc : j.cancelRequested = false) (r : RunResult)
    (h : CopyJob.run fs target name files j = some r) :
    ∃ ds : List String, ds.length = (processedOrder files).length ∧
      r.fs = fs ++ ds ∧
      r.events = copyTrace files.length 0 (processedOrder files) ds ++
        [CopyEvent.complete name] ∧
      r.job = setState .completed (setState .running j) ∧
      (∀ i, (hi : i < ds.length) → (fs ++ ds.take i).contains ds[i] = false) := by
  simp only [CopyJob.run, hc, Bool.false_eq_true, if_false] at h
  cases hrb : runBuckets (target ++ "/" ++ name) files.length (groupByExt files)
      (fs, [], 0) with
  | none => rw [hrb] at h; cases h
  | some acc =>
    rw [hrb] at h
    obtain ⟨fs', evs', c'⟩ := acc
    simp only [Option.some_inj] at h
    rcases runBuckets_spec (target ++ "/" ++ name) files.length (groupByExt files)
        fs [] 0 (fs', evs', c') hrb with ⟨ds, hlen, h1, h2, h3, hf⟩
    simp only at h1 h2 h3
    refine ⟨ds, hlen, ?_, ?_, ?_, hf⟩
    · rw [← h]; exact h1
    · rw [← h]
      simp only
      rw [h2]
      simp [processedOrder]
    · rw [← h]

theorem dictInsertList_flatMap_perm (m : List (String × List String)) (k v : String) :
    ((dictInsertList m k v).flatMap (fun g => g.2)).Perm
      (m.flatMap (fun g => g.2) ++ [v]) := by
  induction m with
  | nil => simp [dictInsertList]
  | cons g m ih =>
    by_cases hk : g.1 = k
    · simp only [dictInsertList, hk, if_pos, List.flatMap_cons]
      have : ([v] ++ m.flatMap (fun g => g.2)).Perm (m.flatMap (fun g => g.2) ++ [v]) :=
        List.perm_append_comm
      simpa [List.append_assoc] using this.append_left g.2
    · simp only [dictInsertList, hk, if_neg, List.flatMap_cons, ite_false]
      simpa [List.append_assoc] using ih.append_left g.2

theorem groupByExt_fold_perm :
    ∀ (files : List String) (acc : List (String × List String)),
      ((files.foldl (fun a f => dictInsertList a (extBucket f) f) acc).flatMap
        (fun g => g.2)).Perm (acc.flatMap (fun g => g.2) ++ files) := by
  intro files
  induction files with
  | nil => intro acc; simp
  | cons f fl ih =>
    intro acc
    simp only [List.foldl_cons]
    have h1 := ih (dictInsertList acc (extBucket f) f)
    have h2 := (dictInsertList_flatMap_perm acc (extBucket f) f).append_right fl
    simpa [List.append_assoc] using h1.trans h2

theorem processedOrder_perm (files : List String) : (processedOrder files).Perm files := by
  simpa [processedOrder, groupByExt] using groupByExt_fold_perm files []

theorem progressList_copyTrace (total : Nat) :
    ∀ l ds c, ds.length = l.length →
    progressList (copyTrace total c l ds) =
      (List.range l.length).map (fun i => (c + i + 1, total)) := by
  intro l
  induction l with
  | nil =>
    intro ds c h
    simp [copyTrace, progressList]
  | cons f fl ih =>
    intro ds c h
    cases ds with
    | nil => simp at h
    | cons d ds' =>
      simp only [copyTrace, progressList, List.filterMap_cons] at ih ⊢
      rw [ih ds' (c + 1) (by simpa using h)]
      simp only [List.length_cons, List.range_succ_eq_map, List.map_cons, List.map_map,
        Nat.add_zero]
      congr 1
      apply List.map_congr_left
      intro i _
      simp only [Function.comp_apply, Prod.mk.injEq]
      exact ⟨by omega, trivial⟩

theorem copySrcs_copyTrace (total : Nat) :
    ∀ l ds c, ds.length = l.length → copySrcs (copyTrace total c l ds) = l := by
  intro l
  induction l with
  | nil =>
    intro ds c h
    simp [copyTrace, copySrcs]
  | cons f fl ih =>
    intro ds c h
    cases ds with
    | nil => simp at h
    | cons d ds' =>
      simp only [copyTrace, copySrcs, List.filterMap_cons] at ih ⊢
      rw [ih ds' (c + 1) (by simpa using h)]

/-! ### Claim C3 -/

/-- C3 counterexample: the progress call is not made after the file attempt —
in a completed one-file run, the call reporting one attempted file precedes
the copy attempt itself. -/
theorem c3_progress_after_attempt_counterexample :
    (CopyJob.run [] "/t" "j" ["/s/a.jpg"] initJob).map
      (fun r => progressAfterAttempts 0 r.events) = some false := by
  decide

/-- C3 (amended): for every batch run to completion, `on_progress` is
invoked exactly once per input file with `(files counted so far, total)`,
immediately BEFORE (not after) each file's copy attempt; the first
components are `1, 2, ..., total` in order (strictly increasing, final call
equal to total), and the attempts happen in processing order: grouped by
extension bucket, buckets in first-seen order, files within a bucket in
input order. -/
theorem c3_progress_calls (fs : List String) (target name : String)
    (files : List String) (r : RunResult)
    (h : CopyJob.run fs target name files initJob = some r) :
    progressList r.events =
      (List.range files.length).map (fun i => (i + 1, files.length)) ∧
    (progressList r.events).length = files.length ∧
    copySrcs r.events = processedOrder files ∧
    (processedOrder files).Perm files ∧
    ∃ ds : List String, ds.length = files.length ∧
      r.events = copyTrace files.length 0 (processedOrder files) ds ++
        [CopyEvent.complete name] := by
  have hperm := processedOrder_perm files
  have hplen : (processedOrder files).length = files.length := hperm.length_eq
  rcases run_spec fs target name files initJob rfl r h with ⟨ds, hdl, _, hev, _, _⟩
  have hfirst : progressList r.events =
      (List.range files.length).map (fun i => (i + 1, files.length)) := by
    rw [hev]
    unfold progressList
    rw [List.filterMap_append]
    have := progressList_copyTrace files.length (processedOrder files) ds 0 hdl
    unfold progressList at this
    rw [this, hplen]
    simp
  refine ⟨hfirst, by rw [hfirst]; simp, ?_, hperm, ds, by rw [hdl, hplen], hev⟩
  rw [hev]
  unfold copySrcs
  rw [List.filterMap_append]
  have := copySrcs_copyTrace files.length (processedOrder files) ds 0 hdl
  unfold copySrcs at this
  rw [this]
  simp

/-- Witness for C3 at the three-file duplicate-basename batch. -/
theorem c3_progress_calls_witness :
    progressList
      [CopyEvent.progress 1 3, CopyEvent.copyFile "/src1/a.jpg" "/dest/trip1/jpg/a.jpg",
       CopyEvent.progress 2 3, CopyEvent.copyFile "/src1/b.jpg" "/dest/trip1/jpg/b.jpg",
       CopyEvent.progress 3 3, CopyEvent.copyFile "/src2/a.jpg" "/dest/trip1/jpg/a_1.jpg",
       CopyEvent.complete "trip1"] =
      (List.range 3).map (fun i => (i + 1, 3)) := by
  exact (c3_progress_calls [] "/dest" "trip1"
    ["/src1/a.jpg", "/src1/b.jpg", "/src2/a.jpg"]
    (RunResult.mk
      ["/dest/trip1/jpg/a.jpg", "/dest/trip1/jpg/b.jpg", "/dest/trip1/jpg/a_1.jpg"]
      [CopyEvent.progress 1 3, CopyEvent.copyFile "/src1/a.jpg" "/dest/trip1/jpg/a.jpg",
       CopyEvent.progress 2 3, CopyEvent.copyFile "/src1/b.jpg" "/dest/trip1/jpg/b.jpg",
       CopyEvent.progress 3 3, CopyEvent.copyFile "/src2/a.jpg" "/dest/trip1/jpg/a_1.jpg",
       CopyEvent.complete "trip1"]
      (JobCtl.mk .completed false [.queued, .running, .completed])) (by decide)).1

/-! ### Claim C4 -/

/-- C4: the collision loop returns exactly the first free destination name
(the original name, else `stem_k.ext` for the least `k ≥ 1` whose name is
free, every earlier candidate being taken); a successful run only creates
files absent from the filesystem as it stood at each copy (never an
overwrite); and copying `[a.jpg, b.jpg, a.jpg]` from two source folders
into fresh `trip1` yields `trip1/jpg/a.jpg`, `trip1/jpg/b.jpg`,
`trip1/jpg/a_1.jpg`. -/
theorem c4_collision_suffix (fs : List String) (dir stem sfx : String) (fuel k : Nat)
    (d : String) (target name : String) (files : List String) (r : RunResult) :
    (findFreeDest fs dir stem sfx fuel k = some d ↔
      ∃ j, j < fuel ∧ fs.contains (destCandidate dir stem sfx (k + j)) = false ∧
        (∀ i, i < j → fs.contains (destCandidate dir stem sfx (k + i)) = true) ∧
        d = destCandidate dir stem sfx (k + j)) ∧
    (CopyJob.run fs target name files initJob = some r →
      ∃ ds : List String, r.fs = fs ++ ds ∧
        (∀ i, (hi : i < ds.length) → (fs ++ ds.take i).contains ds[i] = false)) ∧
    CopyJob.run [] "/dest" "trip1" ["/src1/a.jpg", "/src1/b.jpg", "/src2/a.jpg"] initJob =
      some (RunResult.mk
        ["/dest/trip1/jpg/a.jpg", "/dest/trip1/jpg/b.jpg", "/dest/trip1/jpg/a_1.jpg"]
        [CopyEvent.progress 1 3, CopyEvent.copyFile "/src1/a.jpg" "/dest/trip1/jpg/a.jpg",
         CopyEvent.progress 2 3, CopyEvent.copyFile "/src1/b.jpg" "/dest/trip1/jpg/b.jpg",
         CopyEvent.progress 3 3, CopyEvent.copyFile "/src2/a.jpg" "/dest/trip1/jpg/a_1.jpg",
         CopyEvent.complete "trip1"]
        (JobCtl.mk .completed false [.queued, .running, .completed])) := by
  refine ⟨findFreeDest_spec fs dir stem sfx fuel k d, ?_, by decide⟩
  intro h
  rcases run_spec fs target name files initJob rfl r h with ⟨ds, _, h1, _, _, hf⟩
  exact ⟨ds, h1, hf⟩

/-- Witness for C4: with `a.jpg` and `b.jpg` taken, the loop skips to
`a_1.jpg`; the duplicate-basename run creates exactly the three expected
files, all fresh. -/
theorem c4_collision_suffix_witness :
    findFreeDest ["/dest/trip1/jpg/a.jpg", "/dest/trip1/jpg/b.jpg"] "/dest/trip1/jpg"
      "a" ".jpg" 3 0 = some "/dest/trip1/jpg/a_1.jpg" ∧
    ∃ ds : List String,
      ["/dest/trip1/jpg/a.jpg", "/dest/trip1/jpg/b.jpg", "/dest/trip1/jpg/a_1.jpg"] =
        [] ++ ds := by
  constructor
  · apply (c4_collision_suffix ["/dest/trip1/jpg/a.jpg", "/dest/trip1/jpg/b.jpg"]
      "/dest/trip1/jpg" "a" ".jpg" 3 0 "/dest/trip1/jpg/a_1.jpg" "/dest" "trip1" []
      (RunResult.mk [] [] initJob)).1.mpr
    refine ⟨1, by omega, by decide, ?_, by decide⟩
    intro i hi
    have : i = 0 := by omega
    subst this
    decide
  · rcases (c4_collision_suffix [] "/d" "s" ".x" 1 0 "/d/s.x" "/dest" "trip1"
        ["/src1/a.jpg", "/src1/b.jpg", "/src2/a.jpg"]
        (RunResult.mk
          ["/dest/trip1/jpg/a.jpg", "/dest/trip1/jpg/b.jpg", "/dest/trip1/jpg/a_1.jpg"]
          [CopyEvent.progress 1 3, CopyEvent.copyFile "/src1/a.jpg" "/dest/trip1/jpg/a.jpg",
           CopyEvent.progress 2 3, CopyEvent.copyFile "/src1/b.jpg" "/dest/trip1/jpg/b.jpg",
           CopyEvent.progress 3 3, CopyEvent.copyFile "/src2/a.jpg" "/dest/trip1/jpg/a_1.jpg",
           CopyEvent.complete "trip1"]
          (JobCtl.mk .completed false [.queued, .running, .completed]))).2.1
        (by decide) with ⟨ds, hds, _⟩
    exact ⟨ds, hds⟩

/-! ### Lemmas for the metadata date chain -/

theorem exifTagsSearch_cons (exif : List (String × String)) (t : String)
    (ts : List String) :
    exifTagsSearch exif (t :: ts) =
      match tagParses exif t with
      | some d => some d
      | none => exifTagsSearch exif ts := by
  simp only [exifTagsSearch, tagParses]
  cases (exif.find? (fun p => p.1 == t)).map (fun p => p.2) with
  | none => rfl
  | some v =>
    by_cases hv : v = ""
    · simp [hv]
    · cases FileManager.parseExifDatetime v <;> simp [hv]

theorem exifTagsSearch_first_wins (exif : List (String × String)) (d : String) :
    ∀ ord, exifTagsSearch exif ord = some d ↔
      ∃ pre t post, ord = pre ++ t :: post ∧ tagParses exif t = some d ∧
        ∀ t2 ∈ pre, tagParses exif t2 = none := by
  intro ord
  induction ord with
  | nil =>
    simp only [exifTagsSearch]
    constructor
    · intro h; cases h
    · rintro ⟨pre, t, post, habs, -, -⟩
      exact absurd habs (by simp)
  | cons t ts ih =>
    rw [exifTagsSearch_cons]
    cases ht : tagParses exif t with
    | some d0 =>
      constructor
      · intro h
        injection h with h
        exact ⟨[], t, ts, rfl, by rw [ht, h], by intro t2 h2; simp at h2⟩
      · rintro ⟨pre, t2, post, hsplit, hp, hall⟩
        cases pre with
        | nil =>
          simp only [List.nil_append, List.cons.injEq] at hsplit
          obtain ⟨h1, h2⟩ := hsplit
          rw [← h1] at hp
          rw [hp] at ht
          injection ht with ht
          simp [ht]
        | cons q pre' =>
          simp only [List.cons_append, List.cons.injEq] at hsplit
          obtain ⟨h1, h2⟩ := hsplit
          have hq := hall q (by simp)
          rw [h1] at ht
          rw [hq] at ht
          cases ht
    | none =>
      rw [ih]
      constructor
      · rintro ⟨pre, t2, post, hsplit, hp, hall⟩
        refine ⟨t :: pre, t2, post, by simp [hsplit], hp, ?_⟩
        intro q hq
        rcases List.mem_cons.mp hq with hq | hq
        · rw [hq]; exact ht
        · exact hall q hq
      · rintro ⟨pre, t2, post, hsplit, hp, hall⟩
        cases pre with
        | nil =>
          simp only [List.nil_append, List.cons.injEq] at hsplit
          obtain ⟨h1, h2⟩ := hsplit
          rw [← h1] at hp
          rw [ht] at hp
          cases hp
        | cons q pre' =>
          simp only [List.cons_append, List.cons.injEq] at hsplit
          exact ⟨pre', t2, post, hsplit.2, hp, fun r hr => hall r (by simp [hr])⟩

theorem extractExifDate_first_wins (exif : List (String × String)) (d : String)
    (ord : List String) :
    FileManager.extractExifDate ord exif = some d ↔
      ∃ pre t post, ord = pre ++ t :: post ∧ tagParses exif t = some d ∧
        ∀ t2 ∈ pre, tagParses exif t2 = none := by
  by_cases he : exif.isEmpty
  · have hempty : exif = [] := by
      cases exif with
      | nil => rfl
      | cons a l => simp at he
    subst hempty
    simp only [FileManager.extractExifDate, List.isEmpty_nil, if_pos]
    constructor
    · intro h; cases h
    · rintro ⟨pre, t, post, -, hp, -⟩
      simp [tagParses, List.find?] at hp
  · simp only [FileManager.extractExifDate, he, ite_false]
    exact exifTagsSearch_first_wins exif d ord

/-! ### Claim C7 -/

/-- C7 counterexample: the tag names live in a Python `set`, so there is no
fixed order — two iteration orders of the same set resolve the same EXIF
table to different dates, so no "fixed ordered set, first parseable wins"
rule determines the outcome. -/
theorem c7_tag_order_counterexample :
    (["DateTimeOriginal", "DateTimeDigitized", "DateTime"].Perm EXIF_DATE_TAGS ∧
     ["DateTime", "DateTimeDigitized", "DateTimeOriginal"].Perm EXIF_DATE_TAGS) ∧
    FileManager.extractExifDate ["DateTimeOriginal", "DateTimeDigitized", "DateTime"]
      [("DateTimeOriginal", "2020:01:01"), ("DateTime", "2021:01:01")] =
      some "2020-01-01" ∧
    FileManager.extractExifDate ["DateTime", "DateTimeDigitized", "DateTimeOriginal"]
      [("DateTimeOriginal", "2020:01:01"), ("DateTime", "2021:01:01")] =
      some "2021-01-01" := by
  refine ⟨⟨?_, ?_⟩, by decide, by decide⟩
  · exact List.Perm.refl _
  · decide

/-- C7 (amended): with the metadata-preferred policy and a metadata-capable
extension, the date is resolved by iterating the EXIF tag set in an
unspecified order (the first tag in that iteration order whose value parses
in one of the two EXIF formats wins), then falling back to the IPTC
DateCreated block with its two formats, and finally to the filesystem date
when nothing parses or metadata is unreadable or the extension does not
support metadata. -/
theorem c7_metadata_chain (ord : List String) (hord : ord.Perm EXIF_DATE_TAGS)
    (p : String) (meta : Option ImageMeta) (fsDate : Option String)
    (exif : List (String × String)) (d : String) :
    (IMAGE_METADATA_EXTENSIONS.contains (lowerStr (pathSuffix p)) = false →
      FileManager.resolveDateForFile .metadata ord p meta fsDate = fsDate) ∧
    (FileManager.resolveDateForFile .metadata ord p none fsDate = fsDate) ∧
    (∀ m : ImageMeta,
      IMAGE_METADATA_EXTENSIONS.contains (lowerStr (pathSuffix p)) = true →
      (FileManager.extractExifDate ord m.exif = some d →
        FileManager.resolveDateForFile .metadata ord p (some m) fsDate = some d) ∧
      (FileManager.extractExifDate ord m.exif = none → m.iptcDateCreated = none →
        FileManager.resolveDateForFile .metadata ord p (some m) fsDate = fsDate) ∧
      (∀ s : String, FileManager.extractExifDate ord m.exif = none →
        m.iptcDateCreated = some s →
        ((FileManager.parseIptcDate s = some d →
           FileManager.resolveDateForFile .metadata ord p (some m) fsDate = some d) ∧
         (FileManager.parseIptcDate s = none →
           FileManager.resolveDateForFile .metadata ord p (some m) fsDate = fsDate)))) ∧
    (FileManager.extractExifDate ord exif = some d ↔
      ∃ pre t post, ord = pre ++ t :: post ∧ tagParses exif t = some d ∧
        ∀ t2 ∈ pre, tagParses exif t2 = none) := by
  refine ⟨?_, ?_, ?_, extractExifDate_first_wins exif d ord⟩
  · intro hext
    have hmem : lowerStr (pathSuffix p) ∉ IMAGE_METADATA_EXTENSIONS := by simpa using hext
    simp [FileManager.resolveDateForFile, FileManager.getMetadataDate, hmem]
  · simp [FileManager.resolveDateForFile, FileManager.getMetadataDate]
  · intro m hext
    have hmem : lowerStr (pathSuffix p) ∈ IMAGE_METADATA_EXTENSIONS := by simpa using hext
    refine ⟨?_, ?_, ?_⟩
    · intro hx
      simp [FileManager.resolveDateForFile, FileManager.getMetadataDate, hmem, hx]
    · intro hx hiptc
      simp [FileManager.resolveDateForFile, FileManager.getMetadataDate, hmem, hx, hiptc]
    · intro s hx hiptc
      constructor
      · intro hparse
        simp [FileManager.resolveDateForFile, FileManager.getMetadataDate, hmem, hx,
          hiptc, hparse]
      · intro hparse
        simp [FileManager.resolveDateForFile, FileManager.getMetadataDate, hmem, hx,
          hiptc, hparse]

/-- Witness for C7: the metadata chain at the reference iteration order on
a concrete file — EXIF wins over IPTC, IPTC wins when no EXIF tag parses,
and an unsupported extension falls back to the filesystem date. -/
theorem c7_metadata_chain_witness :
    FileManager.resolveDateForFile .metadata EXIF_DATE_TAGS "/s/a.jpg"
      (some (ImageMeta.mk [("DateTime", "2021:01:01")] (some "20200102")))
      (some "1999-01-01") = some "2021-01-01" ∧
    FileManager.resolveDateForFile .metadata EXIF_DATE_TAGS "/s/a.jpg"
      (some (ImageMeta.mk [("Artist", "x")] (some "20200102")))
      (some "1999-01-01") = some "2020-01-02" ∧
    FileManager.resolveDateForFile .metadata EXIF_DATE_TAGS "/s/a.mp4"
      (some (ImageMeta.mk [("DateTime", "2021:01:01")] none))
      (some "1999-01-01") = some "1999-01-01" := by
  refine ⟨?_, ?_, ?_⟩
  · exact ((c7_metadata_chain EXIF_DATE_TAGS (List.Perm.refl _) "/s/a.jpg"
      (some (ImageMeta.mk [("DateTime", "2021:01:01")] (some "20200102")))
      (some "1999-01-01") [] "2021-01-01").2.2.1
      (ImageMeta.mk [("DateTime", "2021:01:01")] (some "20200102"))
      (by decide)).1 (by decide)
  · exact (((c7_metadata_chain EXIF_DATE_TAGS (List.Perm.refl _) "/s/a.jpg"
      (some (ImageMeta.mk [("Artist", "x")] (some "20200102")))
      (some "1999-01-01") [] "2020-01-02").2.2.1
      (ImageMeta.mk [("Artist", "x")] (some "20200102"))
      (by decide)).2.2 "20200102" (by decide) rfl).1 (by decide)
  · exact (c7_metadata_chain EXIF_DATE_TAGS (List.Perm.refl _) "/s/a.mp4"
      (some (ImageMeta.mk [("DateTime", "2021:01:01")] none))
      (some "1999-01-01") [] "x").1 (by decide)

/-! ### Sorting lemmas -/

theorem lexLe_trans :
    ∀ a b c : List Char, lexLe a b = true → lexLe b c = true → lexLe a c = true := by
  intro a
  induction a with
  | nil => intro b c _ _; rfl
  | cons x xs ih =>
    intro b c hab hbc
    cases b with
    | nil => simp [lexLe] at hab
    | cons y ys =>
      cases c with
      | nil => simp [lexLe] at hbc
      | cons z zs =>
        simp only [lexLe] at hab hbc ⊢
        by_cases hxy : x = y
        · subst hxy
          rw [if_pos rfl] at hab
          by_cases hyz : x = z
          · subst hyz
            rw [if_pos rfl] at hbc ⊢
            exact ih ys zs hab hbc
          · rw [if_neg hyz] at hbc ⊢
            exact hbc
        · rw [if_neg hxy] at hab
          by_cases hyz : y = z
          · subst hyz
            rw [if_neg hxy]
            exact hab
          · rw [if_neg hyz] at hbc
            by_cases hxz : x = z
            · subst hxz
              exfalso
              rw [Nat.blt_eq] at hab hbc
              omega
            · rw [if_neg hxz]
              rw [Nat.blt_eq] at hab hbc ⊢
              omega

theorem strLe_trans {a b c : String} (hab : strLe a b = true) (hbc : strLe b c = true) :
    strLe a c = true :=
  lexLe_trans a.data b.data c.data hab hbc

theorem strLe_false_flip {a b : String} (h : strLe a b = false) : strLe b a = true := by
  rcases strLe_total a b with h2 | h2
  · rw [h] at h2; cases h2
  · exact h2

theorem insertLe_perm (a : String) (l : List String) : (insertLe a l).Perm (a :: l) := by
  induction l with
  | nil => exact List.Perm.refl _
  | cons b l ih =>
    simp only [insertLe]
    by_cases h : strLe a b = true
    · rw [if_pos h]
    · rw [if_neg h]
      exact (ih.cons b).trans (List.Perm.swap a b l)

theorem sortStrings_perm (l : List String) : (sortStrings l).Perm l := by
  induction l with
  | nil => exact List.Perm.refl _
  | cons a l ih => exact (insertLe_perm a (sortStrings l)).trans (ih.cons a)

theorem insertLe_sorted (a : String) (l : List String)
    (h : l.Pairwise (fun x y => strLe x y = true)) :
    (insertLe a l).Pairwise (fun x y => strLe x y = true) := by
  induction l with
  | nil => simp [insertLe]
  | cons b l ih =>
    rcases List.pairwise_cons.mp h with ⟨hb, hl⟩
    simp only [insertLe]
    by_cases hab : strLe a b = true
    · rw [if_pos hab]
      refine List.pairwise_cons.mpr ⟨?_, h⟩
      intro x hx
      rcases List.mem_cons.mp hx with hx | hx
      · rw [hx]; exact hab
      · -- strLe a x via strLe a b and strLe b x: need transitivity... avoid: use totality twice? no.
        exact strLe_trans hab (hb x hx)
    · rw [if_neg hab]
      refine List.pairwise_cons.mpr ⟨?_, ih hl⟩
      intro x hx
      have hx2 : x ∈ a :: l := (insertLe_perm a l).mem_iff.mp hx
      rcases List.mem_cons.mp hx2 with hx2 | hx2
      · rw [hx2]; exact strLe_false_flip (Bool.not_eq_true _ ▸ hab)
      · exact hb x hx2

theorem sortStrings_sorted (l : List String) :
    (sortStrings l).Pairwise (fun x y => strLe x y = true) := by
  induction l with
  | nil => simp [sortStrings]
  | cons a l ih => exact insertLe_sorted a (sortStrings l) ih

theorem insertByKey_perm (g : String × List String) (l : List (String × List String)) :
    (insertByKey g l).Perm (g :: l) := by
  induction l with
  | nil => exact List.Perm.refl _
  | cons h0 l ih =>
    simp only [insertByKey]
    by_cases h : strLe g.1 h0.1 = true
    · rw [if_pos h]
    · rw [if_neg h]
      exact (ih.cons h0).trans (List.Perm.swap g h0 l)

theorem sortByKey_perm (l : List (String × List String)) : (sortByKey l).Perm l := by
  induction l with
  | nil => exact List.Perm.refl _
  | cons g l ih => exact (insertByKey_perm g (sortByKey l)).trans (ih.cons g)

theorem insertByKey_sorted (g : String × List String) (l : List (String × List String))
    (h : l.Pairwise (fun a b => strLe a.1 b.1 = true)) :
    (insertByKey g l).Pairwise (fun a b => strLe a.1 b.1 = true) := by
  induction l with
  | nil => simp [insertByKey]
  | cons h0 l ih =>
    rcases List.pairwise_cons.mp h with ⟨hb, hl⟩
    simp only [insertByKey]
    by_cases hab : strLe g.1 h0.1 = true
    · rw [if_pos hab]
      refine List.pairwise_cons.mpr ⟨?_, h⟩
      intro x hx
      rcases List.mem_cons.mp hx with hx | hx
      · rw [hx]; exact hab
      · exact strLe_trans hab (hb x hx)
    · rw [if_neg hab]
      refine List.pairwise_cons.mpr ⟨?_, ih hl⟩
      intro x hx
      have hx2 : x ∈ g :: l := (insertByKey_perm g l).mem_iff.mp hx
      rcases List.mem_cons.mp hx2 with hx2 | hx2
      · rw [hx2]; exact strLe_false_flip (Bool.not_eq_true _ ▸ hab)
      · exact hb x hx2

theorem sortByKey_sorted (l : List (String × List String)) :
    (sortByKey l).Pairwise (fun a b => strLe a.1 b.1 = true) := by
  induction l with
  | nil => simp [sortByKey]
  | cons g l ih => exact insertByKey_sorted g (sortByKey l) ih

/-! ### Grouping lemmas for the scan -/

theorem keys_dictInsertList (m : List (String × List String)) (k v : String) :
    (dictInsertList m k v).map Prod.fst =
      if k ∈ m.map Prod.fst then m.map Prod.fst else m.map Prod.fst ++ [k] := by
  induction m with
  | nil => simp [dictInsertList]
  | cons g m ih =>
    by_cases hk : g.1 = k
    · simp [dictInsertList, hk]
    · have : ¬ k = g.1 := fun e => hk e.symm
      simp only [dictInsertList, hk, ite_false, List.map_cons, List.mem_cons, this,
        false_or, ih]
      by_cases hm : k ∈ m.map Prod.fst
      · simp [hm]
      · simp [hm]

theorem keys_nodup_dictInsertList (m : List (String × List String)) (k v : String)
    (h : (m.map Prod.fst).Nodup) : ((dictInsertList m k v).map Prod.fst).Nodup := by
  rw [keys_dictInsertList]
  by_cases hm : k ∈ m.map Prod.fst
  · simpa [hm] using h
  · simp [hm, List.nodup_append, h]

theorem mem_dictInsertList (m : List (String × List String)) (k v : String)
    (g : String × List String) (hg : g ∈ dictInsertList m k v) (p : String)
    (hp : p ∈ g.2) :
    (∃ g0 ∈ m, g0.1 = g.1 ∧ p ∈ g0.2) ∨ (p = v ∧ g.1 = k) := by
  induction m with
  | nil =>
    simp only [dictInsertList, List.mem_singleton] at hg
    subst hg
    simp only [List.mem_singleton] at hp
    right
    exact ⟨hp, rfl⟩
  | cons e m ih =>
    by_cases he : e.1 = k
    · simp only [dictInsertList, he, if_pos] at hg
      rcases List.mem_cons.mp hg with hg | hg
      · subst hg
        simp only [List.mem_append, List.mem_singleton] at hp
        rcases hp with hp | hp
        · left; exact ⟨e, List.mem_cons_self e m, he, hp⟩
        · right; exact ⟨hp, rfl⟩
      · left; exact ⟨g, List.mem_cons_of_mem e hg, rfl, hp⟩
    · simp only [dictInsertList, he, ite_false] at hg
      rcases List.mem_cons.mp hg with hg | hg
      · subst hg
        left; exact ⟨g, List.mem_cons_self g m, rfl, hp⟩
      · rcases ih hg with ⟨g0, hg0, hk0, hp0⟩ | h
        · left; exact ⟨g0, List.mem_cons_of_mem e hg0, hk0, hp0⟩
        · right; exact h

theorem occ_dictInsertList (m : List (String × List String)) (k v p : String) :
    ((dictInsertList m k v).map (fun g => g.2.count p)).sum =
      (m.map (fun g => g.2.count p)).sum + (if p = v then 1 else 0) := by
  induction m with
  | nil =>
    by_cases hp : p = v <;>
      simp [dictInsertList, List.count_cons, hp]
  | cons g m ih =>
    by_cases hk : g.1 = k
    · by_cases hp : p = v <;>
        simp [dictInsertList, hk, List.count_append, List.count_cons, hp] <;> omega
    · simp only [dictInsertList, hk, ite_false, List.map_cons, List.sum_cons, ih]
      omega

theorem groupFold_keys_nodup (resolve : String → Option String) :
    ∀ (cands : List String) (acc : List (String × List String)),
      (acc.map Prod.fst).Nodup →
      ((cands.foldl (dateGroupStep resolve) acc).map Prod.fst).Nodup := by
  intro cands
  induction cands with
  | nil => intro acc h; exact h
  | cons q l ih =>
    intro acc h
    simp only [List.foldl_cons]
    apply ih
    unfold dateGroupStep
    cases resolve q with
    | none => exact h
    | some d => exact keys_nodup_dictInsertList acc d q h

theorem groupFold_mem (resolve : String → Option String) :
    ∀ (cands : List String) (acc : List (String × List String))
      (g : String × List String) (p : String),
      g ∈ cands.foldl (dateGroupStep resolve) acc → p ∈ g.2 →
      (∃ g0 ∈ acc, g0.1 = g.1 ∧ p ∈ g0.2) ∨ (p ∈ cands ∧ resolve p = some g.1) := by
  intro cands
  induction cands with
  | nil =>
    intro acc g p hg hp
    left
    exact ⟨g, hg, rfl, hp⟩
  | cons q l ih =>
    intro acc g p hg hp
    simp only [List.foldl_cons] at hg
    cases hr : resolve q with
    | none =>
      rw [show dateGroupStep resolve acc q = acc by simp [dateGroupStep, hr]] at hg
      rcases ih acc g p hg hp with h | h
      · left; exact h
      · right; exact ⟨List.mem_cons_of_mem q h.1, h.2⟩
    | some dq =>
      rw [show dateGroupStep resolve acc q = dictInsertList acc dq q by
        simp [dateGroupStep, hr]] at hg
      rcases ih (dictInsertList acc dq q) g p hg hp with ⟨g0, hg0, hk, hp0⟩ | h
      · rcases mem_dictInsertList acc dq q g0 hg0 p hp0 with ⟨g1, hg1, hk1, hp1⟩ | ⟨hpv, hgk⟩
        · left; exact ⟨g1, hg1, hk1.trans hk, hp1⟩
        · right
          refine ⟨by rw [hpv]; exact List.mem_cons_self q l, ?_⟩
          rw [hpv, hr, ← hk, hgk]
      · right; exact ⟨List.mem_cons_of_mem q h.1, h.2⟩

theorem occ_groupFold (resolve : String → Option String) :
    ∀ (cands : List String) (acc : List (String × List String)) (p : String),
      ((cands.foldl (dateGroupStep resolve) acc).map (fun g => g.2.count p)).sum =
        (acc.map (fun g => g.2.count p)).sum +
          (if (resolve p).isSome then cands.count p else 0) := by
  intro cands
  induction cands with
  | nil =>
    intro acc p
    simp
  | cons q l ih =>
    intro acc p
    simp only [List.foldl_cons]
    rw [ih]
    by_cases hpq : p = q
    · subst hpq
      cases hr : resolve p with
      | none =>
        rw [show dateGroupStep resolve acc p = acc by simp [dateGroupStep, hr]]
        simp [hr]
      | some d =>
        rw [show dateGroupStep resolve acc p = dictInsertList acc d p by
          simp [dateGroupStep, hr], occ_dictInsertList]
        simp [hr, List.count_cons_self]
        omega
    · have hcnt : (q :: l).count p = l.count p := by
        rw [List.count_cons]
        have : (q == p) = false := by
          simp only [beq_eq_false_iff_ne, ne_eq]
          exact fun e => hpq e.symm
        simp [this]
      rw [hcnt]
      cases hr : resolve q with
      | none =>
        rw [show dateGroupStep resolve acc q = acc by simp [dateGroupStep, hr]]
      | some d =>
        rw [show dateGroupStep resolve acc q = dictInsertList acc d q by
          simp [dateGroupStep, hr], occ_dictInsertList]
        simp only [hpq, ite_false]
        omega

theorem scanCandidates_supported (entries : List FsEntry) (p : String)
    (hp : p ∈ scanCandidates entries) :
    FileManager.SUPPORTED_EXTENSIONS.contains (lowerStr (pathSuffix p)) = true := by
  simp only [scanCandidates, List.mem_map, List.mem_filter] at hp
  rcases hp with ⟨e, ⟨_, hcond⟩, rfl⟩
  exact ((Bool.and_eq_true _ _).mp hcond).2

theorem scanFold_groups (resolve : String → Option String) (total : Nat) :
    ∀ (cands : List String) (gs : List (String × List String))
      (prog : List (Nat × Nat)) (n : Nat),
      (cands.foldl (scanStep resolve total) (gs, prog, n)).1 =
        cands.foldl (dateGroupStep resolve) gs := by
  intro cands
  induction cands with
  | nil => intro gs prog n; rfl
  | cons p l ih =>
    intro gs prog n
    simp only [List.foldl_cons]
    cases hr : resolve p with
    | none =>
      rw [show scanStep resolve total (gs, prog, n) p = (gs, prog, n) by
        simp [scanStep, hr]]
      rw [show dateGroupStep resolve gs p = gs by simp [dateGroupStep, hr]]
      exact ih gs prog n
    | some d =>
      rw [show scanStep resolve total (gs, prog, n) p =
          (dictInsertList gs d p, prog ++ [(n + 1, total)], n + 1) by
        simp [scanStep, hr]]
      rw [show dateGroupStep resolve gs p = dictInsertList gs d p by
        simp [dateGroupStep, hr]]
      exact ih _ _ _

theorem sorted_groups_mem (grouped : List (String × List String))
    (g : String × List String)
    (hg : g ∈ sortByKey (grouped.map (fun x => (x.1, sortStrings x.2)))) :
    ∃ g0 ∈ grouped, g.1 = g0.1 ∧ ∀ p, p ∈ g.2 ↔ p ∈ g0.2 := by
  have hmem : g ∈ grouped.map (fun x => (x.1, sortStrings x.2)) :=
    (sortByKey_perm _).mem_iff.mp hg
  rcases List.mem_map.mp hmem with ⟨g0, hg0, rfl⟩
  exact ⟨g0, hg0, rfl, fun p => (sortStrings_perm g0.2).mem_iff⟩

theorem occ_sort_transfer (grouped : List (String × List String)) (p : String) :
    ((sortByKey (grouped.map (fun x => (x.1, sortStrings x.2)))).map
      (fun g => g.2.count p)).sum =
      (grouped.map (fun g => g.2.count p)).sum := by
  have h1 := ((sortByKey_perm (grouped.map (fun x => (x.1, sortStrings x.2)))).map
    (fun g => g.2.count p)).sum_eq
  rw [h1, List.map_map]
  apply congrArg List.sum
  apply List.map_congr_left
  intro x _
  exact (sortStrings_perm x.2).count_eq p

theorem res_keys_nodup (grouped : List (String × List String))
    (h : (grouped.map Prod.fst).Nodup) :
    ((sortByKey (grouped.map (fun x => (x.1, sortStrings x.2)))).map Prod.fst).Nodup := by
  have hperm := (sortByKey_perm (grouped.map (fun x => (x.1, sortStrings x.2)))).map Prod.fst
  rw [hperm.nodup_iff, List.map_map]
  simpa using h

/-! ### Claim C6 -/

/-- C6: a completed scan's DateGroup mapping has its date keys strictly
ascending in the code-point order, the files of each date sorted, every
listed file a supported candidate whose date the active resolution policy
maps to exactly that key, and (for distinct candidate paths) each candidate
in exactly one group when its date resolves and in none when it does not. -/
theorem c6_scan_invariants (fsHas : String → Bool) (entriesOf : String → List FsEntry)
    (resolve : String → Option String) (folder : String)
    (hex : fsHas folder = true)
    (hnd : (scanCandidates (entriesOf folder)).Nodup) :
    ((FileManager.scanFiles fsHas entriesOf resolve (some folder)).groups.Pairwise
        (fun a b => strLe a.1 b.1 = true ∧ a.1 ≠ b.1)) ∧
    (∀ g ∈ (FileManager.scanFiles fsHas entriesOf resolve (some folder)).groups,
        g.2.Pairwise (fun x y => strLe x y = true)) ∧
    (∀ g ∈ (FileManager.scanFiles fsHas entriesOf resolve (some folder)).groups,
        ∀ p ∈ g.2, p ∈ scanCandidates (entriesOf folder) ∧
          FileManager.SUPPORTED_EXTENSIONS.contains (lowerStr (pathSuffix p)) = true ∧
          resolve p = some g.1) ∧
    (∀ p ∈ scanCandidates (entriesOf folder),
        (∀ d, resolve p = some d →
          ((FileManager.scanFiles fsHas entriesOf resolve (some folder)).groups.map
            (fun g => g.2.count p)).sum = 1) ∧
        (resolve p = none →
          ((FileManager.scanFiles fsHas entriesOf resolve (some folder)).groups.map
            (fun g => g.2.count p)).sum = 0)) := by
  have hgroups : (FileManager.scanFiles fsHas entriesOf resolve (some folder)).groups =
      sortByKey (((scanCandidates (entriesOf folder)).foldl (dateGroupStep resolve) []).map
        (fun g => (g.1, sortStrings g.2))) := by
    simp only [FileManager.scanFiles, hex, if_pos]
    rw [scanFold_groups]
  rw [hgroups]
  have hknd : ((((scanCandidates (entriesOf folder)).foldl (dateGroupStep resolve) []).map
      Prod.fst)).Nodup :=
    groupFold_keys_nodup resolve (scanCandidates (entriesOf folder)) [] (by simp)
  refine ⟨?_, ?_, ?_, ?_⟩
  · apply List.Pairwise.and
    · exact sortByKey_sorted _
    · have hres := res_keys_nodup _ hknd
      rw [List.Nodup, List.pairwise_map] at hres
      exact hres
  · intro g hg
    rcases List.mem_map.mp ((sortByKey_perm _).mem_iff.mp hg) with ⟨g0, _, rfl⟩
    exact sortStrings_sorted g0.2
  · intro g hg p hp
    rcases sorted_groups_mem _ g hg with ⟨g0, hg0, hk, hiff⟩
    have hp0 : p ∈ g0.2 := (hiff p).mp hp
    rcases groupFold_mem resolve (scanCandidates (entriesOf folder)) [] g0 p hg0 hp0 with
      ⟨g1, hg1, -, -⟩ | ⟨hc, hres⟩
    · simp at hg1
    · exact ⟨hc, scanCandidates_supported _ p hc, by rw [hk]; exact hres⟩
  · intro p hp
    have hocc := occ_sort_transfer
      (((scanCandidates (entriesOf folder)).foldl (dateGroupStep resolve) [])) p
    have hfold := occ_groupFold resolve (scanCandidates (entriesOf folder)) [] p
    constructor
    · intro d hd
      rw [hocc, hfold, hd]
      simp [List.count_eq_one_of_mem hnd hp]
    · intro hd
      rw [hocc, hfold, hd]
      simp

/-- Witness for C6 at a concrete folder with mixed, unsorted, partly
unsupported and partly unresolvable entries. -/
theorem c6_scan_invariants_witness :
    ((FileManager.scanFiles (fun f => f == "/s")
        (fun _ => [FsEntry.mk "/s/b/2.jpg" true, FsEntry.mk "/s/a/1.JPG" true,
                   FsEntry.mk "/s/x.txt" true, FsEntry.mk "/s/dir" false,
                   FsEntry.mk "/s/c.png" true])
        (fun p => if p = "/s/c.png" then none
          else if p = "/s/b/2.jpg" then some "2021-05-05" else some "2020-01-01")
        (some "/s")).groups.Pairwise
        (fun a b => strLe a.1 b.1 = true ∧ a.1 ≠ b.1)) := by
  exact (c6_scan_invariants (fun f => f == "/s")
    (fun _ => [FsEntry.mk "/s/b/2.jpg" true, FsEntry.mk "/s/a/1.JPG" true,
               FsEntry.mk "/s/x.txt" true, FsEntry.mk "/s/dir" false,
               FsEntry.mk "/s/c.png" true])
    (fun p => if p = "/s/c.png" then none
      else if p = "/s/b/2.jpg" then some "2021-05-05" else some "2020-01-01")
    "/s" (by decide) (by decide)).1
